import Mathlib

/-!
Verification of the PDF table-reconstruction core: row clustering,
column-boundary inference, fragment-to-column assignment and row
serialization, as implemented in `backend/test.py`
(`extract_pdf_tables`, `extract_pdf_tables_enhanced`) and
`backend/services/loading_service.py` (`extract_pdf_tables`).

Coordinates are embedded as `Int` (the source compares them only with
tolerance-based inequalities, never exact float equality, so integer
inputs exercise every branch).  Python's stable `list.sort(key=...)`
is embedded as a stable insertion sort, which computes the same
(unique) stable-sort function.  Strings are Lean `String`s; Python's
`re.sub(r'\s+', ' ', s).strip()` and `str.strip()` are embedded
character-list-wise below.
-/

namespace RagTables

/-- A positioned text fragment, the dict built from an `LTTextContainer`:
`{'text', 'x0', 'y0', 'x1', 'y1', 'page_height'}`. -/
structure Fragment where
  text : String
  x0 : Int
  y0 : Int
  x1 : Int
  y1 : Int
  pageHeight : Int
deriving Repr, DecidableEq, Inhabited

/-- A column interval `[xmin, xmax]` as used by the enhanced extractor. -/
structure ColInterval where
  xmin : Int
  xmax : Int
deriving Repr, DecidableEq, Inhabited

/-- Whitespace in the sense of the regex class matched by the source's
cleaning step (space, tab, newline, carriage return, vertical tab, form feed). -/
def isSpaceChar (c : Char) : Bool :=
  c = ' ' || c = '\t' || c = '\n' || c = '\r' || c = '\x0b' || c = '\x0c'

/-- Collapse every whitespace run to one single space
(the substitution the basic extractor applies to a cell's text);
`prevWS` records whether the previous character was whitespace. -/
def collapseWSAux (prevWS : Bool) : List Char → List Char
  | [] => []
  | c :: cs =>
    if isSpaceChar c then
      if prevWS then collapseWSAux true cs
      else ' ' :: collapseWSAux true cs
    else c :: collapseWSAux false cs

/-- Remove leading and trailing whitespace from a character list. -/
def stripChars (l : List Char) : List Char :=
  (((l.dropWhile isSpaceChar).reverse).dropWhile isSpaceChar).reverse

/-- Python `str.strip()`. -/
def pyStrip (s : String) : String :=
  ⟨stripChars s.data⟩

/-- The basic extractor's cell cleaning: collapse whitespace runs to a
single space, then strip. -/
def cleanText (s : String) : String :=
  ⟨stripChars (collapseWSAux false s.data)⟩

/-- Insert `a` into `l` before the first element `x` with `le a x`
(after every element it compares `le x a` equal-or-before). -/
def insertSorted (le : α → α → Bool) (a : α) : List α → List α
  | [] => [a]
  | x :: xs => if le a x then a :: x :: xs else x :: insertSorted le a xs

/-- Stable sort (insertion sort), the embedding of Python's stable
`list.sort(key=...)`. -/
def stableSort (le : α → α → Bool) : List α → List α
  | [] => []
  | a :: l => insertSorted le a (stableSort le l)

/-- Sort key `-y0` ascending, i.e. `y0` descending (top of page first). -/
def yDesc (a b : Fragment) : Bool := b.y0 ≤ a.y0

/-- Sort key `x0` ascending (left to right inside a row). -/
def xAsc (a b : Fragment) : Bool := a.x0 ≤ b.x0

/-- Sort key `xmin` ascending for column intervals. -/
def colAsc (a b : ColInterval) : Bool := a.xmin ≤ b.xmin

/-- Collection of usable text elements from a page: each element's text is
stripped, and elements whose stripped text is empty are discarded
(`text = element.get_text().strip(); if text: ...`). -/
def collectText (elems : List Fragment) : List Fragment :=
  elems.foldl
    (fun acc e =>
      let t := pyStrip e.text
      if t ≠ "" then acc ++ [{ e with text := t }] else acc) []

/-- The basic extractor's row-grouping loop: `rows`, `current_row`, `row_y`
are the mutable state; each fragment either joins the current row (when
`abs(y0 - row_y) < th`, the reference `row_y` staying pinned) or closes it
and opens a new one. -/
def clusterBasicAux (th : Int) (rows : List (List Fragment))
    (currentRow : List Fragment) (rowY : Option Int) :
    List Fragment → List (List Fragment)
  | [] => if currentRow.isEmpty then rows else rows ++ [currentRow]
  | t :: rest =>
    match rowY with
    | none => clusterBasicAux th rows (currentRow ++ [t]) (some t.y0) rest
    | some y =>
      if |t.y0 - y| < th then
        clusterBasicAux th rows (currentRow ++ [t]) (some y) rest
      else
        clusterBasicAux th (if currentRow.isEmpty then rows else rows ++ [currentRow])
          [t] (some t.y0) rest

/-- Basic-mode row clustering (`row_threshold = 5` in the source). -/
def clusterRowsBasic (th : Int) (l : List Fragment) : List (List Fragment) :=
  clusterBasicAux th [] [] none l

/-- The enhanced extractor's row-grouping loop: each fragment is compared
against `current_row[-1]` (the previous member), threshold `8`. -/
def clusterEnhancedAux (rows : List (List Fragment)) (currentRow : List Fragment) :
    List Fragment → List (List Fragment)
  | [] => if currentRow.isEmpty then rows else rows ++ [currentRow]
  | t :: rest =>
    match currentRow.getLast? with
    | none => clusterEnhancedAux rows (currentRow ++ [t]) rest
    | some lastText =>
      if |t.y0 - lastText.y0| < 8 then
        clusterEnhancedAux rows (currentRow ++ [t]) rest
      else
        clusterEnhancedAux (rows ++ [currentRow]) [t] rest

/-- Enhanced-mode (column-exact) row clustering. -/
def clusterRowsEnhanced (l : List Fragment) : List (List Fragment) :=
  clusterEnhancedAux [] [] l

/-- The basic extractor's cell pass over one row: clean each fragment's
text and keep it when non-empty. -/
def rowData (row : List Fragment) : List String :=
  row.foldl
    (fun acc c =>
      let clean := cleanText c.text
      if clean ≠ "" then acc ++ [clean] else acc) []

/-- Python `sep.join(parts)`. -/
def pyJoin (sep : String) : List String → String
  | [] => ""
  | [c] => c
  | c :: c' :: cs => c ++ sep ++ pyJoin sep (c' :: cs)

/-- The serializer: `"\t " + " \t ".join(row) + " \t"`. -/
def serializeRow (cells : List String) : String :=
  "\t " ++ pyJoin " \t " cells ++ " \t"

/-- Rows of one page in basic mode: usable fragments sorted by `y0`
descending, then clustered with threshold 5. -/
def pageRowsBasic (elems : List Fragment) : List (List Fragment) :=
  clusterRowsBasic 5 (stableSort yDesc (collectText elems))

/-- One page of the basic extractor: cluster rows, sort each row by `x0`,
clean cells, drop empty rows.  A page with no usable text yields no rows. -/
def processPageBasic (elems : List Fragment) : List (List String) :=
  let textElements := collectText elems
  if textElements = [] then []
  else ((pageRowsBasic elems).map (fun r => rowData (stableSort xAsc r))).filter (· ≠ [])

/-- `extract_pdf_tables` (loading_service variant): serialized row strings of
all pages in page order. -/
def extract_pdf_tables (pages : List (List Fragment)) : List String :=
  ((pages.map processPageBasic).flatten).map serializeRow

/-- `extract_pdf_tables` (test.py variant): the same rows joined by newlines. -/
def extract_pdf_tables_string (pages : List (List Fragment)) : String :=
  pyJoin "\n" (extract_pdf_tables pages)

/-- Interval discovery step of the enhanced extractor: the fragment extends
the first interval whose `[xmin - 5, xmax + 5]` range contains its `x0`;
otherwise a new interval `[x0, x1]` is appended at the end. -/
def addToBoundaries : List ColInterval → Fragment → List ColInterval
  | [], t => [⟨t.x0, t.x1⟩]
  | c :: cs, t =>
    if t.x0 ≥ c.xmin - 5 && t.x0 ≤ c.xmax + 5 then
      ⟨min c.xmin t.x0, max c.xmax t.x1⟩ :: cs
    else
      c :: addToBoundaries cs t

/-- Phase 1 of the column boundary resolver: walk the page's rows in order,
fragments within each row in order. -/
def discoverBoundaries (rows : List (List Fragment)) : List ColInterval :=
  rows.foldl (fun acc row => row.foldl addToBoundaries acc) []

/-- One step of the merge loop: `merged[-1]` absorbs `c` when
`c.xmin <= merged[-1].xmax + 10`, else `c` is appended. -/
def mergeInto (merged : List ColInterval) (c : ColInterval) : List ColInterval :=
  match merged.getLast? with
  | none => [c]
  | some lastCol =>
    if c.xmin ≤ lastCol.xmax + 10 then
      merged.dropLast ++ [⟨lastCol.xmin, max lastCol.xmax c.xmax⟩]
    else merged ++ [c]

/-- Phase 2 of the column boundary resolver: sort by `xmin` and merge
intervals whose gap is within 10. -/
def mergeBoundaries (cols : List ColInterval) : List ColInterval :=
  (stableSort colAsc cols).foldl mergeInto []

/-- The enhanced extractor's inner placement loop over
`enumerate(merged_columns)` with `break` on the first interval that fits
(`x0 >= xmin - 5 and x1 <= xmax + 5`); `i` is the running index. -/
def placeLoop (t : Fragment) (slots : List String) : Nat → List ColInterval → List String
  | _, [] => slots
  | i, c :: cs =>
    if t.x0 ≥ c.xmin - 5 && t.x1 ≤ c.xmax + 5 then
      slots.set i
        (if slots.getD i "" ≠ "" then slots.getD i "" ++ " " ++ t.text else t.text)
    else
      placeLoop t slots (i + 1) cs

/-- Place one fragment into the row's slot array. -/
def placeFragment (cols : List ColInterval) (slots : List String) (t : Fragment) :
    List String :=
  placeLoop t slots 0 cols

/-- The enhanced extractor's row assembly: sort the row by `x0`, place each
fragment into its column slot, then strip cells and drop empty ones. -/
def assembleRow (cols : List ColInterval) (row : List Fragment) : List String :=
  let sorted := stableSort xAsc row
  let slots := sorted.foldl (fun s t => placeFragment cols s t) (List.replicate cols.length "")
  (slots.map pyStrip).filter (· ≠ "")

/-- Rows of one page in enhanced (column-exact) mode. -/
def pageRowsEnhanced (elems : List Fragment) : List (List Fragment) :=
  clusterRowsEnhanced (stableSort yDesc (collectText elems))

/-- The resolved column intervals of one page in enhanced mode. -/
def pageColumns (elems : List Fragment) : List ColInterval :=
  mergeBoundaries (discoverBoundaries (pageRowsEnhanced elems))

/-- One page of the enhanced extractor. -/
def processPageEnhanced (elems : List Fragment) : List (List String) :=
  let textElements := collectText elems
  if textElements = [] then []
  else ((pageRowsEnhanced elems).map (assembleRow (pageColumns elems))).filter (· ≠ [])

/-- `extract_pdf_tables_enhanced`: serialized row strings of all pages. -/
def extract_pdf_tables_enhanced (pages : List (List Fragment)) : List String :=
  ((pages.map processPageEnhanced).flatten).map serializeRow

/-- `extract_pdf_tables_enhanced` joined output string. -/
def extract_pdf_tables_enhanced_string (pages : List (List Fragment)) : String :=
  pyJoin "\n" (extract_pdf_tables_enhanced pages)

/-! ### Specification-side definitions

These restate parts of the spec in independent form; theorems below
compare them with the source-embedded definitions above. -/

/-- Modelled from the spec: the character layout of one serialized row,
"tab, space, c1, space, tab, space, c2, ..., space, tab" (the part between
the framing tab+space and space+tab is built here). -/
def rowSpecChars : List String → List Char
  | [] => []
  | [c] => c.data
  | c :: c' :: cs => c.data ++ ' ' :: '\t' :: ' ' :: rowSpecChars (c' :: cs)

/-- Modelled from the spec: a downstream consumer splitting a line on the
tab character (Python `line.split('\t')` semantics). -/
def splitTab : List Char → List (List Char)
  | [] => [[]]
  | c :: cs =>
    if c = '\t' then [] :: splitTab cs
    else
      match splitTab cs with
      | [] => [[c]]
      | t :: ts => (c :: t) :: ts

/-- Modelled from the spec: index of the first element satisfying `p`,
scanning left to right. -/
def firstMatchIdx (p : α → Bool) : List α → Option Nat
  | [] => none
  | x :: xs => if p x then some 0 else (firstMatchIdx p xs).map (· + 1)

/-- Modelled from the spec: interval-discovery step — extend the first
interval whose `[xmin-5, xmax+5]` range contains the fragment's `x0`
(to `min xmin x0` / `max xmax x1`), else append a new interval `[x0, x1]`. -/
def addSpec (cs : List ColInterval) (t : Fragment) : List ColInterval :=
  match firstMatchIdx (fun c => t.x0 ≥ c.xmin - 5 && t.x0 ≤ c.xmax + 5) cs with
  | some i =>
    let c := cs.getD i ⟨0, 0⟩
    cs.set i ⟨min c.xmin t.x0, max c.xmax t.x1⟩
  | none => cs ++ [⟨t.x0, t.x1⟩]

/-- Modelled from the spec: slot placement — the fragment goes into the
first interval `i` with `x0 ≥ xmin-5` and `x1 ≤ xmax+5` (appending after
one separating space when the slot is occupied); with no match it is
dropped. -/
def placeSpec (cols : List ColInterval) (slots : List String) (t : Fragment) :
    List String :=
  match firstMatchIdx (fun c => t.x0 ≥ c.xmin - 5 && t.x1 ≤ c.xmax + 5) cols with
  | some i =>
    slots.set i
      (if slots.getD i "" ≠ "" then slots.getD i "" ++ " " ++ t.text else t.text)
  | none => slots

/-- Modelled from the spec: the merge walk with explicit accumulator —
`cur` absorbs the next interval when its `xmin` is within `cur.xmax + 10`. -/
def mergeRun (cur : ColInterval) : List ColInterval → List ColInterval
  | [] => [cur]
  | c :: cs =>
    if c.xmin ≤ cur.xmax + 10 then mergeRun ⟨cur.xmin, max cur.xmax c.xmax⟩ cs
    else cur :: mergeRun c cs

/-- Modelled from the spec: the whole merge walk over a sorted interval
list. -/
def mergeRunTop : List ColInterval → List ColInterval
  | [] => []
  | c :: cs => mergeRun c cs

/-! ### Helper lemmas -/

theorem data_head_sep : ("\t " : String).data = ['\t', ' '] := rfl

theorem data_mid_sep : (" \t " : String).data = [' ', '\t', ' '] := rfl

theorem data_tail_sep : (" \t" : String).data = [' ', '\t'] := rfl

theorem pyJoin_data (cells : List String) :
    (pyJoin " \t " cells).data = rowSpecChars cells := by
  induction cells with
  | nil => rfl
  | cons c cs ih =>
    cases cs with
    | nil => rfl
    | cons c' cs' =>
      simp only [pyJoin, rowSpecChars, String.data_append, data_mid_sep, ih]
      simp

theorem serializeRow_data (cells : List String) :
    (serializeRow cells).data = '\t' :: ' ' :: (rowSpecChars cells ++ [' ', '\t']) := by
  simp only [serializeRow, String.data_append, data_head_sep, data_tail_sep, pyJoin_data]
  simp

theorem rowData_go (row : List Fragment) :
    ∀ acc : List String,
      row.foldl
        (fun acc c =>
          let clean := cleanText c.text
          if clean ≠ "" then acc ++ [clean] else acc) acc
      = acc ++ (row.map (fun t => cleanText t.text)).filter (· ≠ "") := by
  induction row with
  | nil => intro acc; simp
  | cons c cs ih =>
    intro acc
    rw [List.foldl_cons, ih, List.map_cons, List.filter_cons]
    by_cases h : cleanText c.text = ""
    · simp [h]
    · simp [h]

theorem rowData_eq (row : List Fragment) :
    rowData row = (row.map (fun t => cleanText t.text)).filter (· ≠ "") := by
  simpa [rowData] using rowData_go row []

/-- The pinned-row property: every member of a nonempty row is within `th`
of the row's first member. -/
def PinnedRow (th : Int) (r : List Fragment) : Prop :=
  ∀ f rest, r = f :: rest → ∀ t ∈ r, |t.y0 - f.y0| < th

theorem clusterBasicAux_pinned (th : Int) (hth : 0 < th) :
    ∀ (l : List Fragment) (rows : List (List Fragment)) (cur : List Fragment)
      (rowY : Option Int),
      (∀ r ∈ rows, PinnedRow th r) →
      ((cur = [] ∧ rowY = none) ∨
        (∃ f rest, cur = f :: rest ∧ rowY = some f.y0 ∧
          ∀ t ∈ cur, |t.y0 - f.y0| < th)) →
      ∀ r ∈ clusterBasicAux th rows cur rowY l, PinnedRow th r := by
  intro l
  induction l with
  | nil =>
    intro rows cur rowY hrows hinv r hr
    rcases hinv with ⟨hc, _⟩ | ⟨f, rest, hc, _, hmem⟩
    · subst hc
      simp only [clusterBasicAux, List.isEmpty_nil, if_true] at hr
      exact hrows r hr
    · subst hc
      simp only [clusterBasicAux, List.isEmpty_cons, if_false, Bool.false_eq_true] at hr
      rcases List.mem_append.mp hr with h | h
      · exact hrows r h
      · rw [List.mem_singleton] at h
        subst h
        intro f' rest' heq t ht
        injection heq with h1 _
        subst h1
        exact hmem t ht
  | cons t l ih =>
    intro rows cur rowY hrows hinv r hr
    cases rowY with
    | none =>
      rcases hinv with ⟨hc, _⟩ | ⟨f, rest, _, hy, _⟩
      · subst hc
        simp only [clusterBasicAux] at hr
        refine ih rows [t] (some t.y0) hrows (Or.inr ⟨t, [], rfl, rfl, ?_⟩) r hr
        intro u hu
        rw [List.mem_singleton] at hu
        subst hu
        simpa using hth
      · exact Option.noConfusion hy
    | some y =>
      rcases hinv with ⟨_, hy⟩ | ⟨f, rest, hc, hy, hmem⟩
      · exact Option.noConfusion hy
      · subst hc
        injection hy with hy'
        subst hy'
        by_cases hlt : |t.y0 - f.y0| < th
        · have hstep : clusterBasicAux th rows (f :: rest) (some f.y0) (t :: l)
              = clusterBasicAux th rows ((f :: rest) ++ [t]) (some f.y0) l := by
            simp [clusterBasicAux, hlt]
          rw [hstep] at hr
          refine ih rows ((f :: rest) ++ [t]) (some f.y0) hrows
            (Or.inr ⟨f, rest ++ [t], rfl, rfl, ?_⟩) r hr
          intro u hu
          rcases List.mem_append.mp hu with h | h
          · exact hmem u h
          · rw [List.mem_singleton] at h
            subst h
            exact hlt
        · have hstep : clusterBasicAux th rows (f :: rest) (some f.y0) (t :: l)
              = clusterBasicAux th (rows ++ [f :: rest]) [t] (some t.y0) l := by
            simp [clusterBasicAux, hlt]
          rw [hstep] at hr
          refine ih (rows ++ [f :: rest]) [t] (some t.y0) ?_
            (Or.inr ⟨t, [], rfl, rfl, ?_⟩) r hr
          · intro r' hr'
            rcases List.mem_append.mp hr' with h | h
            · exact hrows r' h
            · rw [List.mem_singleton] at h
              subst h
              intro f' rest' heq u hu
              injection heq with h1 _
              subst h1
              exact hmem u hu
          · intro u hu
            rw [List.mem_singleton] at hu
            subst hu
            simpa using hth

/-- Chained-tolerance relation of column-exact mode: consecutive members
differ by less than 8 in `y0`. -/
def Near8 (a b : Fragment) : Prop := |b.y0 - a.y0| < 8

theorem clusterEnhancedAux_chain :
    ∀ (l : List Fragment) (rows : List (List Fragment)) (cur : List Fragment),
      (∀ r ∈ rows, List.Chain' Near8 r) →
      List.Chain' Near8 cur →
      ∀ r ∈ clusterEnhancedAux rows cur l, List.Chain' Near8 r := by
  intro l
  induction l with
  | nil =>
    intro rows cur hrows hcur r hr
    by_cases hc : cur = []
    · subst hc
      simp only [clusterEnhancedAux, List.isEmpty_nil, if_true] at hr
      exact hrows r hr
    · rw [show clusterEnhancedAux rows cur [] = rows ++ [cur] by
        simp [clusterEnhancedAux, List.isEmpty_iff, hc]] at hr
      rcases List.mem_append.mp hr with h | h
      · exact hrows r h
      · rw [List.mem_singleton] at h
        subst h
        exact hcur
  | cons t l ih =>
    intro rows cur hrows hcur r hr
    cases hgl : cur.getLast? with
    | none =>
      rw [List.getLast?_eq_none_iff] at hgl
      subst hgl
      simp only [clusterEnhancedAux, List.getLast?_nil, List.nil_append] at hr
      exact ih rows [t] hrows (List.chain'_singleton t) r hr
    | some lastT =>
      by_cases h8 : |t.y0 - lastT.y0| < 8
      · rw [show clusterEnhancedAux rows cur (t :: l)
            = clusterEnhancedAux rows (cur ++ [t]) l by
          simp [clusterEnhancedAux, hgl, h8]] at hr
        refine ih rows (cur ++ [t]) hrows ?_ r hr
        rw [List.chain'_append]
        refine ⟨hcur, List.chain'_singleton t, ?_⟩
        intro x hx y hy
        rw [hgl, Option.mem_some_iff] at hx
        simp only [List.head?_cons, Option.mem_some_iff] at hy
        subst hx; subst hy
        exact h8
      · rw [show clusterEnhancedAux rows cur (t :: l)
            = clusterEnhancedAux (rows ++ [cur]) [t] l by
          simp [clusterEnhancedAux, hgl, h8]] at hr
        refine ih (rows ++ [cur]) [t] ?_ (List.chain'_singleton t) r hr
        intro r' hr'
        rcases List.mem_append.mp hr' with h | h
        · exact hrows r' h
        · rw [List.mem_singleton] at h
          subst h
          exact hcur

theorem placeLoop_spec (t : Fragment) (slots : List String) :
    ∀ (cols : List ColInterval) (k : Nat),
      placeLoop t slots k cols
        = match firstMatchIdx (fun c => t.x0 ≥ c.xmin - 5 && t.x1 ≤ c.xmax + 5) cols with
          | some j =>
            slots.set (k + j)
              (if slots.getD (k + j) "" ≠ "" then slots.getD (k + j) "" ++ " " ++ t.text
                else t.text)
          | none => slots := by
  intro cols
  induction cols with
  | nil => intro k; rfl
  | cons c cs ih =>
    intro k
    have hstep : placeLoop t slots k (c :: cs)
        = if (t.x0 ≥ c.xmin - 5 && t.x1 ≤ c.xmax + 5) = true
          then slots.set k
            (if slots.getD k "" ≠ "" then slots.getD k "" ++ " " ++ t.text else t.text)
          else placeLoop t slots (k + 1) cs := rfl
    have hfm : firstMatchIdx (fun c => t.x0 ≥ c.xmin - 5 && t.x1 ≤ c.xmax + 5) (c :: cs)
        = if (t.x0 ≥ c.xmin - 5 && t.x1 ≤ c.xmax + 5) = true then some 0
          else (firstMatchIdx (fun c => t.x0 ≥ c.xmin - 5 && t.x1 ≤ c.xmax + 5) cs).map
            (· + 1) := rfl
    rw [hstep, hfm]
    cases hp : (t.x0 ≥ c.xmin - 5 && t.x1 ≤ c.xmax + 5) with
    | true =>
      rw [if_pos rfl, if_pos rfl]
      rfl
    | false =>
      rw [if_neg Bool.false_ne_true, if_neg Bool.false_ne_true, ih (k + 1)]
      cases firstMatchIdx (fun c => t.x0 ≥ c.xmin - 5 && t.x1 ≤ c.xmax + 5) cs with
      | none => rfl
      | some j =>
        show slots.set (k + 1 + j)
            (if slots.getD (k + 1 + j) "" ≠ ""
              then slots.getD (k + 1 + j) "" ++ " " ++ t.text else t.text)
          = slots.set (k + (j + 1))
            (if slots.getD (k + (j + 1)) "" ≠ ""
              then slots.getD (k + (j + 1)) "" ++ " " ++ t.text else t.text)
        rw [show k + 1 + j = k + (j + 1) from by omega]

theorem placeFragment_spec (cols : List ColInterval) (slots : List String) (t : Fragment) :
    placeFragment cols slots t = placeSpec cols slots t := by
  rw [placeFragment, placeLoop_spec t slots cols 0, placeSpec]
  cases firstMatchIdx (fun c => t.x0 ≥ c.xmin - 5 && t.x1 ≤ c.xmax + 5) cols with
  | none => rfl
  | some j => simp

theorem placeFragment_length (cols : List ColInterval) (slots : List String) (t : Fragment) :
    (placeFragment cols slots t).length = slots.length := by
  rw [placeFragment_spec, placeSpec]
  cases firstMatchIdx (fun c => t.x0 ≥ c.xmin - 5 && t.x1 ≤ c.xmax + 5) cols with
  | none => rfl
  | some j => simp

theorem foldl_placeFragment_length (cols : List ColInterval) :
    ∀ (row : List Fragment) (slots : List String),
      (row.foldl (fun s t => placeFragment cols s t) slots).length = slots.length := by
  intro row
  induction row with
  | nil => intro slots; rfl
  | cons t ts ih =>
    intro slots
    rw [List.foldl_cons, ih, placeFragment_length]

theorem assembleRow_length (cols : List ColInterval) (row : List Fragment) :
    (assembleRow cols row).length ≤ cols.length := by
  unfold assembleRow
  calc ((((stableSort xAsc row).foldl (fun s t => placeFragment cols s t)
            (List.replicate cols.length "")).map pyStrip).filter (· ≠ "")).length
      ≤ (((stableSort xAsc row).foldl (fun s t => placeFragment cols s t)
            (List.replicate cols.length "")).map pyStrip).length :=
        List.length_filter_le _ _
    _ = cols.length := by
        rw [List.length_map, foldl_placeFragment_length, List.length_replicate]

theorem addSpec_cons (c : ColInterval) (cs : List ColInterval) (t : Fragment) :
    addSpec (c :: cs) t
      = if (t.x0 ≥ c.xmin - 5 && t.x0 ≤ c.xmax + 5) = true
        then ⟨min c.xmin t.x0, max c.xmax t.x1⟩ :: cs
        else c :: addSpec cs t := by
  have hfm : firstMatchIdx (fun c => t.x0 ≥ c.xmin - 5 && t.x0 ≤ c.xmax + 5) (c :: cs)
      = if (t.x0 ≥ c.xmin - 5 && t.x0 ≤ c.xmax + 5) = true then some 0
        else (firstMatchIdx (fun c => t.x0 ≥ c.xmin - 5 && t.x0 ≤ c.xmax + 5) cs).map
          (· + 1) := rfl
  unfold addSpec
  rw [hfm]
  cases hp : (t.x0 ≥ c.xmin - 5 && t.x0 ≤ c.xmax + 5) with
  | true =>
    rw [if_pos rfl, if_pos rfl]
    rfl
  | false =>
    rw [if_neg Bool.false_ne_true, if_neg Bool.false_ne_true]
    cases firstMatchIdx (fun c => t.x0 ≥ c.xmin - 5 && t.x0 ≤ c.xmax + 5) cs with
    | none => rfl
    | some j => rfl

theorem addToBoundaries_spec :
    ∀ (cs : List ColInterval) (t : Fragment), addToBoundaries cs t = addSpec cs t := by
  intro cs t
  induction cs with
  | nil => rfl
  | cons c cs ih =>
    have hstep : addToBoundaries (c :: cs) t
        = if (t.x0 ≥ c.xmin - 5 && t.x0 ≤ c.xmax + 5) = true
          then ⟨min c.xmin t.x0, max c.xmax t.x1⟩ :: cs
          else c :: addToBoundaries cs t := rfl
    rw [hstep, addSpec_cons, ih]

theorem discoverBoundaries_go (rows : List (List Fragment)) :
    ∀ acc : List ColInterval,
      rows.foldl (fun acc row => row.foldl addToBoundaries acc) acc
        = rows.flatten.foldl addToBoundaries acc := by
  induction rows with
  | nil => intro acc; rfl
  | cons row rest ih =>
    intro acc
    rw [List.foldl_cons, ih, List.flatten_cons, List.foldl_append]

theorem discoverBoundaries_flatten (rows : List (List Fragment)) :
    discoverBoundaries rows = rows.flatten.foldl addToBoundaries [] :=
  discoverBoundaries_go rows []

theorem foldl_mergeInto_run :
    ∀ (rest : List ColInterval) (acc : List ColInterval) (cur : ColInterval),
      List.foldl mergeInto (acc ++ [cur]) rest = acc ++ mergeRun cur rest := by
  intro rest
  induction rest with
  | nil => intro acc cur; rfl
  | cons c cs ih =>
    intro acc cur
    rw [List.foldl_cons]
    by_cases hm : c.xmin ≤ cur.xmax + 10
    · rw [show mergeInto (acc ++ [cur]) c
          = acc ++ [(⟨cur.xmin, max cur.xmax c.xmax⟩ : ColInterval)] by
        simp [mergeInto, List.getLast?_concat, hm]]
      rw [ih, show mergeRun cur (c :: cs)
          = mergeRun ⟨cur.xmin, max cur.xmax c.xmax⟩ cs by simp [mergeRun, hm]]
    · rw [show mergeInto (acc ++ [cur]) c = (acc ++ [cur]) ++ [c] by
        simp [mergeInto, List.getLast?_concat, hm]]
      rw [ih (acc ++ [cur]) c,
        show mergeRun cur (c :: cs) = cur :: mergeRun c cs by simp [mergeRun, hm]]
      simp

theorem mergeBoundaries_spec (cols : List ColInterval) :
    mergeBoundaries cols = mergeRunTop (stableSort colAsc cols) := by
  rw [mergeBoundaries]
  cases stableSort colAsc cols with
  | nil => rfl
  | cons c cs =>
    rw [List.foldl_cons,
      show mergeInto [] c = [] ++ [c] by simp [mergeInto],
      foldl_mergeInto_run cs [] c]
    rfl

theorem mem_insertSorted (le : α → α → Bool) (a : α) :
    ∀ (l : List α) (x : α), x ∈ insertSorted le a l ↔ x = a ∨ x ∈ l := by
  intro l
  induction l with
  | nil => intro x; simp [insertSorted]
  | cons y ys ih =>
    intro x
    unfold insertSorted
    by_cases h : le a y = true
    · rw [if_pos h]
      simp only [List.mem_cons]
    · rw [if_neg h]
      simp only [List.mem_cons, ih]
      tauto

theorem pairwise_insertSorted (le : α → α → Bool)
    (htot : ∀ a b, le a b = false → le b a = true)
    (htrans : ∀ a b c, le a b = true → le b c = true → le a c = true) (a : α) :
    ∀ l : List α, List.Pairwise (fun x y => le x y = true) l →
      List.Pairwise (fun x y => le x y = true) (insertSorted le a l) := by
  intro l
  induction l with
  | nil => intro _; simp [insertSorted]
  | cons y ys ih =>
    intro hp
    rcases List.pairwise_cons.mp hp with ⟨hy, hys⟩
    unfold insertSorted
    by_cases h : le a y = true
    · rw [if_pos h]
      refine List.pairwise_cons.mpr ⟨?_, hp⟩
      intro z hz
      rcases List.mem_cons.mp hz with rfl | hz'
      · exact h
      · exact htrans a y z h (hy z hz')
    · rw [if_neg h]
      refine List.pairwise_cons.mpr ⟨?_, ih hys⟩
      intro z hz
      rcases (mem_insertSorted le a ys z).mp hz with hza | hz'
      · rw [hza]
        exact htot a y (Bool.eq_false_iff.mpr h)
      · exact hy z hz'

theorem stableSort_pairwise (le : α → α → Bool)
    (htot : ∀ a b, le a b = false → le b a = true)
    (htrans : ∀ a b c, le a b = true → le b c = true → le a c = true) :
    ∀ l : List α, List.Pairwise (fun x y => le x y = true) (stableSort le l) := by
  intro l
  induction l with
  | nil => simp [stableSort]
  | cons a l ih => exact pairwise_insertSorted le htot htrans a _ ih

theorem stableSort_eq_of_chain (le : α → α → Bool) :
    ∀ l : List α, List.Chain' (fun x y => le x y = true) l → stableSort le l = l := by
  intro l
  induction l with
  | nil => intro _; rfl
  | cons a l ih =>
    intro hc
    unfold stableSort
    rw [ih hc.tail]
    cases l with
    | nil => rfl
    | cons b bs =>
      have hab : le a b = true := (List.chain'_cons.mp hc).1
      unfold insertSorted
      rw [if_pos hab]

theorem mergeRun_head :
    ∀ (cs : List ColInterval) (cur : ColInterval),
      ∃ z rest, mergeRun cur cs = ⟨cur.xmin, z⟩ :: rest := by
  intro cs
  induction cs with
  | nil => intro cur; exact ⟨cur.xmax, [], rfl⟩
  | cons c cs ih =>
    intro cur
    unfold mergeRun
    by_cases hm : c.xmin ≤ cur.xmax + 10
    · rw [if_pos hm]
      obtain ⟨z, rest, h⟩ := ih ⟨cur.xmin, max cur.xmax c.xmax⟩
      exact ⟨z, rest, h⟩
    · rw [if_neg hm]
      exact ⟨cur.xmax, mergeRun c cs, rfl⟩

theorem mergeRun_chain_gap :
    ∀ (cs : List ColInterval) (cur : ColInterval),
      List.Chain' (fun a b => ¬ (b.xmin ≤ a.xmax + 10)) (mergeRun cur cs) := by
  intro cs
  induction cs with
  | nil => intro cur; exact List.chain'_singleton cur
  | cons c cs ih =>
    intro cur
    unfold mergeRun
    by_cases hm : c.xmin ≤ cur.xmax + 10
    · rw [if_pos hm]
      exact ih _
    · rw [if_neg hm]
      obtain ⟨z, rest, hEq⟩ := mergeRun_head cs c
      rw [hEq, List.chain'_cons]
      exact ⟨hm, hEq ▸ ih c⟩

theorem mergeRun_chain_le :
    ∀ (cs : List ColInterval) (cur : ColInterval),
      (∀ d ∈ cs, cur.xmin ≤ d.xmin) →
      List.Pairwise (fun a b : ColInterval => a.xmin ≤ b.xmin) cs →
      List.Chain' (fun a b : ColInterval => a.xmin ≤ b.xmin) (mergeRun cur cs) := by
  intro cs
  induction cs with
  | nil => intro cur _ _; exact List.chain'_singleton cur
  | cons c cs ih =>
    intro cur h1 h2
    rcases List.pairwise_cons.mp h2 with ⟨hc, hcs⟩
    unfold mergeRun
    by_cases hm : c.xmin ≤ cur.xmax + 10
    · rw [if_pos hm]
      exact ih ⟨cur.xmin, max cur.xmax c.xmax⟩
        (fun d hd => h1 d (List.mem_cons_of_mem c hd)) hcs
    · rw [if_neg hm]
      obtain ⟨z, rest, hEq⟩ := mergeRun_head cs c
      rw [hEq, List.chain'_cons]
      exact ⟨h1 c (List.mem_cons_self c cs), hEq ▸ ih c hc hcs⟩

theorem mergeRun_id_of_gap :
    ∀ (cs : List ColInterval) (cur : ColInterval),
      List.Chain' (fun a b => ¬ (b.xmin ≤ a.xmax + 10)) (cur :: cs) →
      mergeRun cur cs = cur :: cs := by
  intro cs
  induction cs with
  | nil => intro cur _; rfl
  | cons c cs ih =>
    intro cur hc
    have hgap : ¬ (c.xmin ≤ cur.xmax + 10) := (List.chain'_cons.mp hc).1
    unfold mergeRun
    rw [if_neg hgap, ih c (List.chain'_cons.mp hc).2]

/-- One-sided row property: no member lies above the row's first member,
and every member is within `th` strictly below it. -/
def OneSidedRow (th : Int) (r : List Fragment) : Prop :=
  ∀ f rest, r = f :: rest → ∀ t ∈ r, 0 ≤ f.y0 - t.y0 ∧ f.y0 - t.y0 < th

theorem clusterBasicAux_oneSided (th : Int) (hth : 0 < th) :
    ∀ (l : List Fragment) (rows : List (List Fragment)) (cur : List Fragment)
      (rowY : Option Int),
      List.Pairwise (fun a b : Fragment => b.y0 ≤ a.y0) l →
      (∀ r ∈ rows, OneSidedRow th r) →
      ((cur = [] ∧ rowY = none) ∨
        (∃ f rest, cur = f :: rest ∧ rowY = some f.y0 ∧
          (∀ t ∈ cur, 0 ≤ f.y0 - t.y0 ∧ f.y0 - t.y0 < th) ∧
          (∀ u ∈ l, u.y0 ≤ f.y0))) →
      ∀ r ∈ clusterBasicAux th rows cur rowY l, OneSidedRow th r := by
  intro l
  induction l with
  | nil =>
    intro rows cur rowY _ hrows hinv r hr
    rcases hinv with ⟨hc, _⟩ | ⟨f, rest, hc, _, hmem, _⟩
    · subst hc
      simp only [clusterBasicAux, List.isEmpty_nil, if_true] at hr
      exact hrows r hr
    · subst hc
      simp only [clusterBasicAux, List.isEmpty_cons, if_false, Bool.false_eq_true] at hr
      rcases List.mem_append.mp hr with h | h
      · exact hrows r h
      · rw [List.mem_singleton] at h
        subst h
        intro f' rest' heq t ht
        injection heq with h1 _
        subst h1
        exact hmem t ht
  | cons t l ih =>
    intro rows cur rowY hsorted hrows hinv r hr
    have hsl : List.Pairwise (fun a b : Fragment => b.y0 ≤ a.y0) l :=
      (List.pairwise_cons.mp hsorted).2
    have hstep : ∀ u ∈ l, u.y0 ≤ t.y0 := (List.pairwise_cons.mp hsorted).1
    cases rowY with
    | none =>
      rcases hinv with ⟨hc, _⟩ | ⟨f, rest, _, hy, _, _⟩
      · subst hc
        simp only [clusterBasicAux] at hr
        refine ih rows [t] (some t.y0) hsl hrows
          (Or.inr ⟨t, [], rfl, rfl, ?_, hstep⟩) r hr
        intro u hu
        rw [List.mem_singleton] at hu
        subst hu
        constructor <;> omega
      · exact Option.noConfusion hy
    | some y =>
      rcases hinv with ⟨_, hy⟩ | ⟨f, rest, hc, hy, hmem, hbound⟩
      · exact Option.noConfusion hy
      · subst hc
        injection hy with hy'
        subst hy'
        have hty : t.y0 ≤ f.y0 := hbound t (List.mem_cons_self t l)
        by_cases hlt : |t.y0 - f.y0| < th
        · have hstep' : clusterBasicAux th rows (f :: rest) (some f.y0) (t :: l)
              = clusterBasicAux th rows ((f :: rest) ++ [t]) (some f.y0) l := by
            simp [clusterBasicAux, hlt]
          rw [hstep'] at hr
          refine ih rows ((f :: rest) ++ [t]) (some f.y0) hsl hrows
            (Or.inr ⟨f, rest ++ [t], rfl, rfl, ?_, ?_⟩) r hr
          · intro u hu
            rcases List.mem_append.mp hu with h | h
            · exact hmem u h
            · rw [List.mem_singleton] at h
              rw [h]
              have habs : |t.y0 - f.y0| = f.y0 - t.y0 := by
                rw [abs_sub_comm]
                exact abs_of_nonneg (by omega)
              rw [habs] at hlt
              constructor <;> omega
          · intro u hu
            exact hbound u (List.mem_cons_of_mem t hu)
        · have hstep' : clusterBasicAux th rows (f :: rest) (some f.y0) (t :: l)
              = clusterBasicAux th (rows ++ [f :: rest]) [t] (some t.y0) l := by
            simp [clusterBasicAux, hlt]
          rw [hstep'] at hr
          refine ih (rows ++ [f :: rest]) [t] (some t.y0) hsl ?_
            (Or.inr ⟨t, [], rfl, rfl, ?_, hstep⟩) r hr
          · intro r' hr'
            rcases List.mem_append.mp hr' with h | h
            · exact hrows r' h
            · rw [List.mem_singleton] at h
              subst h
              intro f' rest' heq u hu
              injection heq with h1 _
              subst h1
              exact hmem u hu
          · intro u hu
            rw [List.mem_singleton] at hu
            subst hu
            constructor <;> omega

theorem length_dropWhileChars_le (p : Char → Bool) (l : List Char) :
    (l.dropWhile p).length ≤ l.length :=
  (List.dropWhile_sublist p).length_le

theorem splitTab_cons_tab (cs : List Char) : splitTab ('\t' :: cs) = [] :: splitTab cs := rfl

theorem splitTab_break :
    ∀ (xs ys : List Char), '\t' ∉ xs →
      splitTab (xs ++ '\t' :: ys) = xs :: splitTab ys := by
  intro xs
  induction xs with
  | nil =>
    intro ys _
    exact splitTab_cons_tab ys
  | cons x xs ih =>
    intro ys hx
    have hxt : ¬ (x = '\t') := by
      intro h
      exact hx (h ▸ List.mem_cons_self x xs)
    have hstep : splitTab (x :: (xs ++ '\t' :: ys))
        = if x = '\t' then [] :: splitTab (xs ++ '\t' :: ys)
          else match splitTab (xs ++ '\t' :: ys) with
            | [] => [[x]]
            | t :: ts => (x :: t) :: ts := rfl
    rw [List.cons_append, hstep, if_neg hxt, ih ys (fun h => hx (List.mem_cons_of_mem x h))]

theorem splitTab_middle :
    ∀ cells : List String, cells ≠ [] →
      (∀ c ∈ cells, '\t' ∉ c.data) →
      splitTab (' ' :: (rowSpecChars cells ++ [' ', '\t']))
        = cells.map (fun c => ' ' :: (c.data ++ [' '])) ++ [[]] := by
  intro cells
  induction cells with
  | nil => intro h; exact absurd rfl h
  | cons c cs ih =>
    intro _ htab
    have hpadfree : '\t' ∉ ' ' :: (c.data ++ [' ']) := by
      intro h
      rcases List.mem_cons.mp h with h' | h'
      · exact absurd h' (by decide)
      · rcases List.mem_append.mp h' with h'' | h''
        · exact htab c (List.mem_cons_self c cs) h''
        · rw [List.mem_singleton] at h''
          exact absurd h'' (by decide)
    cases cs with
    | nil =>
      have harr : ' ' :: (rowSpecChars [c] ++ [' ', '\t'])
          = (' ' :: (c.data ++ [' '])) ++ '\t' :: [] := by
        simp [rowSpecChars]
      rw [harr, splitTab_break _ _ hpadfree]
      rfl
    | cons c' cs' =>
      have harr : ' ' :: (rowSpecChars (c :: c' :: cs') ++ [' ', '\t'])
          = (' ' :: (c.data ++ [' ']))
              ++ '\t' :: (' ' :: (rowSpecChars (c' :: cs') ++ [' ', '\t'])) := by
        simp [rowSpecChars]
      rw [harr, splitTab_break _ _ hpadfree,
        ih (List.cons_ne_nil c' cs') (fun d hd => htab d (List.mem_cons_of_mem c hd))]
      simp

theorem dropWhile_head_false (p : Char → Bool) (x : Char) (xs : List Char)
    (h : (x :: xs).dropWhile p = x :: xs) : p x = false := by
  cases hx : p x with
  | false => rfl
  | true =>
    rw [List.dropWhile_cons, if_pos hx] at h
    have h1 := length_dropWhileChars_le p xs
    rw [h] at h1
    simp at h1

theorem dropWhile_eq_self_of_strip (l : List Char) (h : stripChars l = l) :
    l.dropWhile isSpaceChar = l := by
  cases l with
  | nil => rfl
  | cons x xs =>
    have hlen1 : (stripChars (x :: xs)).length
        ≤ ((x :: xs).dropWhile isSpaceChar).length := by
      unfold stripChars
      rw [List.length_reverse]
      calc (List.dropWhile isSpaceChar ((x :: xs).dropWhile isSpaceChar).reverse).length
          ≤ ((x :: xs).dropWhile isSpaceChar).reverse.length :=
            length_dropWhileChars_le _ _
        _ = ((x :: xs).dropWhile isSpaceChar).length := List.length_reverse _
    rw [h] at hlen1
    cases hx : isSpaceChar x with
    | false => rw [List.dropWhile_cons, if_neg (by rw [hx]; exact Bool.false_ne_true)]
    | true =>
      exfalso
      rw [List.dropWhile_cons, if_pos hx] at hlen1
      have h2 := length_dropWhileChars_le isSpaceChar xs
      simp only [List.length_cons] at hlen1
      omega

theorem reverse_dropWhile_eq_self_of_strip (l : List Char) (h : stripChars l = l) :
    l.reverse.dropWhile isSpaceChar = l.reverse := by
  have hA : l.dropWhile isSpaceChar = l := dropWhile_eq_self_of_strip l h
  unfold stripChars at h
  rw [hA] at h
  have h' := congrArg List.reverse h
  rw [List.reverse_reverse] at h'
  exact h'

theorem strip_pad (c : List Char) (h : stripChars c = c) :
    stripChars (' ' :: (c ++ [' '])) = c := by
  cases c with
  | nil => decide
  | cons x xs =>
    have hA : (x :: xs).dropWhile isSpaceChar = x :: xs :=
      dropWhile_eq_self_of_strip _ h
    have hx : isSpaceChar x = false := dropWhile_head_false isSpaceChar x xs hA
    have hrev : (x :: xs).reverse.dropWhile isSpaceChar = (x :: xs).reverse :=
      reverse_dropWhile_eq_self_of_strip _ h
    have hsp : isSpaceChar ' ' = true := rfl
    unfold stripChars
    rw [List.dropWhile_cons, if_pos hsp,
      show (x :: xs) ++ [' '] = x :: (xs ++ [' ']) from rfl,
      List.dropWhile_cons, if_neg (by rw [hx]; exact Bool.false_ne_true),
      show x :: (xs ++ [' ']) = (x :: xs) ++ [' '] from rfl,
      List.reverse_append,
      show ([' '] : List Char).reverse ++ (x :: xs).reverse
        = ' ' :: (x :: xs).reverse from by simp,
      List.dropWhile_cons, if_pos hsp, hrev, List.reverse_reverse]

/-! ### Claim theorems -/

/-- C1 (counterexample): in column-exact mode the whitespace-collapsing
cleaning rule is NOT applied — a fragment whose raw text is
`"Total:\n  42 "` yields the cell `"Total:\n  42"` (embedded newline and
run of spaces intact), not `"Total: 42"` as the claim requires for both
modes. -/
theorem C1_counterexample :
    processPageEnhanced [⟨"Total:\n  42 ", 0, 100, 10, 110, 800⟩]
      = [["Total:\n  42"]] ∧
    ("Total:\n  42" : String) ≠ "Total: 42" := by
  exact ⟨by decide, by decide⟩

/-- C1 (amended): in basic mode every emitted cell is the fragment's text
with whitespace runs collapsed to one space and then trimmed, and a
fragment whose cleaned text is empty contributes no cell; the fragment
`"Total:\n  42 "` yields cell `"Total: 42"` in basic mode.  In column-exact
mode no collapsing happens: the same fragment's cell keeps its embedded
whitespace (`"Total:\n  42"`). -/
theorem C1_cell_cleaning :
    (∀ row : List Fragment,
      rowData row = (row.map (fun t => cleanText t.text)).filter (· ≠ "")) ∧
    cleanText "Total:\n  42 " = "Total: 42" ∧
    processPageBasic [⟨"Total:\n  42 ", 0, 100, 10, 110, 800⟩]
      = [["Total: 42"]] ∧
    processPageEnhanced [⟨"Total:\n  42 ", 0, 100, 10, 110, 800⟩]
      = [["Total:\n  42"]] := by
  refine ⟨rowData_eq, by decide, by decide, by decide⟩

/-- C2: the serializer emits, byte for byte, tab, space, c1, space, tab,
space, c2, ..., space, tab for a row, and the document output lists pages'
serialized rows in page order, joined by newlines in the string variant. -/
theorem C2_serializer_layout :
    (∀ cells : List String,
      (serializeRow cells).data = '\t' :: ' ' :: (rowSpecChars cells ++ [' ', '\t'])) ∧
    (∀ (p : List Fragment) (ps : List (List Fragment)),
      extract_pdf_tables (p :: ps)
        = (processPageBasic p).map serializeRow ++ extract_pdf_tables ps) ∧
    (∀ pages : List (List Fragment),
      extract_pdf_tables_string pages = pyJoin "\n" (extract_pdf_tables pages)) := by
  refine ⟨serializeRow_data, ?_, fun _ => rfl⟩
  intro p ps
  simp [extract_pdf_tables]

/-- C3: in basic mode (threshold 5) every member of a row produced by the
row clusterer satisfies `|member.y0 - first.y0| < 5`, where `first` is the
row's first member — the comparison reference stays pinned and is never
updated while appending. -/
theorem C3_pinned_reference :
    ∀ (l : List Fragment) (row : List Fragment) (f : Fragment) (rest : List Fragment),
      row ∈ clusterRowsBasic 5 l → row = f :: rest →
      ∀ t ∈ row, |t.y0 - f.y0| < 5 := by
  intro l row f rest hmem heq t ht
  exact clusterBasicAux_pinned 5 (by norm_num) l [] [] none
    (by intro r hr; exact absurd hr (List.not_mem_nil r))
    (Or.inl ⟨rfl, rfl⟩) row hmem f rest heq t ht

/-- C3 witness: a concrete two-fragment page whose two fragments end up in
one row; the theorem applies and the bound holds. -/
theorem C3_pinned_reference_witness :
    [(⟨"a", 0, 102, 10, 112, 800⟩ : Fragment), ⟨"b", 20, 100, 30, 110, 800⟩]
        ∈ clusterRowsBasic 5
          [⟨"a", 0, 102, 10, 112, 800⟩, ⟨"b", 20, 100, 30, 110, 800⟩] ∧
    ∀ t ∈ [(⟨"a", 0, 102, 10, 112, 800⟩ : Fragment), ⟨"b", 20, 100, 30, 110, 800⟩],
      |t.y0 - (⟨"a", 0, 102, 10, 112, 800⟩ : Fragment).y0| < 5 :=
  ⟨by decide,
    C3_pinned_reference
      [⟨"a", 0, 102, 10, 112, 800⟩, ⟨"b", 20, 100, 30, 110, 800⟩]
      [⟨"a", 0, 102, 10, 112, 800⟩, ⟨"b", 20, 100, 30, 110, 800⟩]
      ⟨"a", 0, 102, 10, 112, 800⟩ [⟨"b", 20, 100, 30, 110, 800⟩]
      (by decide) rfl⟩

/-- C4: column-exact row clustering chains pairwise-consecutively — every
produced row is a chain in which consecutive members' `y0` differ by less
than 8 — and a page with fragments at `y0 = 0, 4, 8, 12` collapses into one
single row, although the pinned-reference rule at the same threshold would
split it in two. -/
theorem C4_chained_clustering :
    (∀ (l : List Fragment) (row : List Fragment),
      row ∈ clusterRowsEnhanced l → List.Chain' Near8 row) ∧
    pageRowsEnhanced
        [⟨"a", 0, 0, 10, 5, 800⟩, ⟨"b", 0, 4, 10, 9, 800⟩,
          ⟨"c", 0, 8, 10, 13, 800⟩, ⟨"d", 0, 12, 10, 17, 800⟩]
      = [[⟨"d", 0, 12, 10, 17, 800⟩, ⟨"c", 0, 8, 10, 13, 800⟩,
          ⟨"b", 0, 4, 10, 9, 800⟩, ⟨"a", 0, 0, 10, 5, 800⟩]] ∧
    clusterRowsBasic 8
        (stableSort yDesc
          [⟨"a", 0, 0, 10, 5, 800⟩, ⟨"b", 0, 4, 10, 9, 800⟩,
            ⟨"c", 0, 8, 10, 13, 800⟩, ⟨"d", 0, 12, 10, 17, 800⟩])
      = [[⟨"d", 0, 12, 10, 17, 800⟩, ⟨"c", 0, 8, 10, 13, 800⟩],
          [⟨"b", 0, 4, 10, 9, 800⟩, ⟨"a", 0, 0, 10, 5, 800⟩]] := by
  refine ⟨?_, by decide, by decide⟩
  intro l row hmem
  exact clusterEnhancedAux_chain l [] []
    (by intro r hr; exact absurd hr (List.not_mem_nil r))
    List.chain'_nil row hmem

/-- C4 witness: the chained-tolerance bound instantiated on the concrete
one-row clustering of the fragments at `y0 = 12, 8, 4, 0`. -/
theorem C4_chained_clustering_witness :
    List.Chain' Near8
      [(⟨"d", 0, 12, 10, 17, 800⟩ : Fragment), ⟨"c", 0, 8, 10, 13, 800⟩,
        ⟨"b", 0, 4, 10, 9, 800⟩, ⟨"a", 0, 0, 10, 5, 800⟩] :=
  C4_chained_clustering.1
    [⟨"d", 0, 12, 10, 17, 800⟩, ⟨"c", 0, 8, 10, 13, 800⟩,
      ⟨"b", 0, 4, 10, 9, 800⟩, ⟨"a", 0, 0, 10, 5, 800⟩]
    [⟨"d", 0, 12, 10, 17, 800⟩, ⟨"c", 0, 8, 10, 13, 800⟩,
      ⟨"b", 0, 4, 10, 9, 800⟩, ⟨"a", 0, 0, 10, 5, 800⟩]
    (by decide)

/-- C5: column-exact row assembly allocates one slot per resolved interval;
each fragment goes to the first interval `i` (left to right) with
`x0 ≥ xmin - 5` and `x1 ≤ xmax + 5` (occupied slots append after one
separating space; unmatched fragments are dropped), and empty slots are
stripped, so the output cell count is at most the number of resolved
columns.  The concrete row shows two fragments merging into one slot with
a single space, an unmatched fragment silently dropped, and the empty
second slot removed. -/
theorem C5_column_assignment :
    (∀ (cols : List ColInterval) (slots : List String) (t : Fragment),
      placeFragment cols slots t = placeSpec cols slots t) ∧
    (∀ (cols : List ColInterval) (row : List Fragment),
      (assembleRow cols row).length ≤ cols.length) ∧
    assembleRow [⟨0, 10⟩, ⟨50, 60⟩]
        [⟨"A", 0, 100, 8, 110, 800⟩, ⟨"B", 2, 100, 9, 110, 800⟩,
          ⟨"C", 100, 100, 110, 110, 800⟩]
      = ["A B"] :=
  ⟨placeFragment_spec, assembleRow_length, by decide⟩

/-- C6: the column boundary resolver is the specified two-phase algorithm —
phase 1 folds `addToBoundaries` (first-fit extend-or-append, proved equal
to the spec-side `addSpec`) over the page's fragments in page order, and
phase 2 equals sorting by `xmin` followed by the left-to-right merge walk
`mergeRun` with gap tolerance 10; `[0,20]` and `[28,40]` merge to `[0,40]`. -/
theorem C6_boundary_resolver :
    (∀ (cs : List ColInterval) (t : Fragment), addToBoundaries cs t = addSpec cs t) ∧
    (∀ rows : List (List Fragment),
      discoverBoundaries rows = rows.flatten.foldl addToBoundaries []) ∧
    (∀ cols : List ColInterval,
      mergeBoundaries cols = mergeRunTop (stableSort colAsc cols)) ∧
    mergeBoundaries [⟨0, 20⟩, ⟨28, 40⟩] = [⟨0, 40⟩] :=
  ⟨addToBoundaries_spec, discoverBoundaries_flatten, mergeBoundaries_spec, by decide⟩

/-- C9: a page whose usable (non-empty after stripping) fragment set is
empty produces zero rows in both modes and zero output lines, and
surrounding pages are processed as if it were absent. -/
theorem C9_empty_page :
    ∀ elems : List Fragment, collectText elems = [] →
      processPageBasic elems = [] ∧ processPageEnhanced elems = [] ∧
      (∀ pre post : List (List Fragment),
        extract_pdf_tables (pre ++ elems :: post) = extract_pdf_tables (pre ++ post) ∧
        extract_pdf_tables_enhanced (pre ++ elems :: post)
          = extract_pdf_tables_enhanced (pre ++ post)) := by
  intro elems h
  have hb : processPageBasic elems = [] := by
    simp [processPageBasic, h]
  have he : processPageEnhanced elems = [] := by
    simp [processPageEnhanced, h]
  refine ⟨hb, he, ?_⟩
  intro pre post
  constructor
  · simp [extract_pdf_tables, hb]
  · simp [extract_pdf_tables_enhanced, he]

/-- C9 witness: a page holding one whitespace-only fragment has no usable
text and yields zero rows. -/
theorem C9_empty_page_witness :
    collectText [(⟨" \n ", 0, 0, 5, 5, 800⟩ : Fragment)] = [] ∧
    processPageBasic [(⟨" \n ", 0, 0, 5, 5, 800⟩ : Fragment)] = [] :=
  ⟨by decide, (C9_empty_page [⟨" \n ", 0, 0, 5, 5, 800⟩] (by decide)).1⟩

/-- C7: the merge phase is idempotent — applied to its own output it
returns the same interval list unchanged. -/
theorem C7_merge_idempotent :
    ∀ cols : List ColInterval,
      mergeBoundaries (mergeBoundaries cols) = mergeBoundaries cols := by
  have htot : ∀ a b : ColInterval, colAsc a b = false → colAsc b a = true := by
    intro a b h
    simp only [colAsc, decide_eq_false_iff_not, not_le] at h
    simp only [colAsc, decide_eq_true_eq]
    omega
  have htrans : ∀ a b c : ColInterval,
      colAsc a b = true → colAsc b c = true → colAsc a c = true := by
    intro a b c h1 h2
    simp only [colAsc, decide_eq_true_eq] at h1 h2 ⊢
    omega
  intro cols
  rw [mergeBoundaries_spec cols]
  cases hs : stableSort colAsc cols with
  | nil => rfl
  | cons c cs =>
    have hpair : List.Pairwise (fun a b => colAsc a b = true) (stableSort colAsc cols) :=
      stableSort_pairwise colAsc htot htrans cols
    rw [hs] at hpair
    have hpair' : List.Pairwise (fun a b : ColInterval => a.xmin ≤ b.xmin) (c :: cs) :=
      hpair.imp (fun h => by simpa [colAsc, decide_eq_true_eq] using h)
    have hle : List.Chain' (fun a b : ColInterval => a.xmin ≤ b.xmin) (mergeRun c cs) :=
      mergeRun_chain_le cs c (List.pairwise_cons.mp hpair').1 (List.pairwise_cons.mp hpair').2
    have hgap := mergeRun_chain_gap cs c
    show mergeBoundaries (mergeRun c cs) = mergeRun c cs
    rw [mergeBoundaries_spec (mergeRun c cs)]
    have hsort : stableSort colAsc (mergeRun c cs) = mergeRun c cs := by
      apply stableSort_eq_of_chain
      refine hle.imp ?_
      intro a b h
      simp only [colAsc, decide_eq_true_eq]
      exact h
    rw [hsort]
    obtain ⟨z, rest, hEq⟩ := mergeRun_head cs c
    rw [hEq]
    show mergeRun ⟨c.xmin, z⟩ rest = ⟨c.xmin, z⟩ :: rest
    apply mergeRun_id_of_gap
    rw [hEq] at hgap
    exact hgap

/-- C10: in basic mode, because fragments are sorted by `y0` descending
before clustering and the reference is pinned, every member of a pipeline
row satisfies `0 ≤ first.y0 - member.y0 < 5` — the first member has the
maximum `y0` and the deviation is one-sided. -/
theorem C10_one_sided_deviation :
    ∀ (elems : List Fragment) (row : List Fragment) (f : Fragment) (rest : List Fragment),
      row ∈ pageRowsBasic elems → row = f :: rest →
      ∀ t ∈ row, 0 ≤ f.y0 - t.y0 ∧ f.y0 - t.y0 < 5 := by
  have htot : ∀ a b : Fragment, yDesc a b = false → yDesc b a = true := by
    intro a b h
    simp only [yDesc, decide_eq_false_iff_not, not_le] at h
    simp only [yDesc, decide_eq_true_eq]
    omega
  have htrans : ∀ a b c : Fragment,
      yDesc a b = true → yDesc b c = true → yDesc a c = true := by
    intro a b c h1 h2
    simp only [yDesc, decide_eq_true_eq] at h1 h2 ⊢
    omega
  intro elems row f rest hmem heq t ht
  have hsorted : List.Pairwise (fun a b : Fragment => b.y0 ≤ a.y0)
      (stableSort yDesc (collectText elems)) :=
    (stableSort_pairwise yDesc htot htrans (collectText elems)).imp
      (fun h => by simpa [yDesc, decide_eq_true_eq] using h)
  exact clusterBasicAux_oneSided 5 (by norm_num)
    (stableSort yDesc (collectText elems)) [] [] none hsorted
    (by intro r hr; exact absurd hr (List.not_mem_nil r))
    (Or.inl ⟨rfl, rfl⟩) row hmem f rest heq t ht

/-- C10 witness: a concrete two-fragment page; both members of the one
resulting row lie at or below its first member and within 5 of it. -/
theorem C10_one_sided_deviation_witness :
    [(⟨"b", 20, 102, 30, 112, 800⟩ : Fragment), ⟨"a", 0, 100, 10, 110, 800⟩]
        ∈ pageRowsBasic
          [⟨"a", 0, 100, 10, 110, 800⟩, ⟨"b", 20, 102, 30, 112, 800⟩] ∧
    ∀ t ∈ [(⟨"b", 20, 102, 30, 112, 800⟩ : Fragment), ⟨"a", 0, 100, 10, 110, 800⟩],
      0 ≤ (⟨"b", 20, 102, 30, 112, 800⟩ : Fragment).y0 - t.y0 ∧
        (⟨"b", 20, 102, 30, 112, 800⟩ : Fragment).y0 - t.y0 < 5 :=
  ⟨by decide,
    C10_one_sided_deviation
      [⟨"a", 0, 100, 10, 110, 800⟩, ⟨"b", 20, 102, 30, 112, 800⟩]
      [⟨"b", 20, 102, 30, 112, 800⟩, ⟨"a", 0, 100, 10, 110, 800⟩]
      ⟨"b", 20, 102, 30, 112, 800⟩ [⟨"a", 0, 100, 10, 110, 800⟩]
      (by decide) rfl⟩

/-- C8 (counterexample): splitting the serialized row of the single cell
`"a"` on the tab character and discarding the empty leading and trailing
tokens yields the token `" a "` (space-padded), not the original cell
text `"a"`. -/
theorem C8_counterexample :
    ((splitTab (serializeRow ["a"]).data).drop 1).dropLast
      = [[' ', 'a', ' ']] ∧
    ([' ', 'a', ' '] : List Char) ≠ ('a' :: []) := by
  exact ⟨by decide, by decide⟩

/-- C8 (amended): splitting a serialized row on the tab character yields an
empty leading token, one token per cell, and an empty trailing token; after
discarding the empty leading/trailing tokens, the i-th token is the i-th
cell padded with one space on each side, so trimming each token recovers
exactly the original cell count and cell texts (for cells that are
tab-free and already trimmed, as the assembler produces them). -/
theorem C8_roundtrip_amended :
    ∀ cells : List String, cells ≠ [] →
      (∀ c ∈ cells, '\t' ∉ c.data) →
      (∀ c ∈ cells, stripChars c.data = c.data) →
      splitTab (serializeRow cells).data
        = ([] :: cells.map (fun c => ' ' :: (c.data ++ [' ']))) ++ [[]] ∧
      (((splitTab (serializeRow cells).data).drop 1).dropLast).map stripChars
        = cells.map String.data := by
  intro cells hne htab hstrip
  have hsplit : splitTab (serializeRow cells).data
      = ([] :: cells.map (fun c => ' ' :: (c.data ++ [' ']))) ++ [[]] := by
    rw [serializeRow_data cells, splitTab_cons_tab, splitTab_middle cells hne htab]
    rfl
  refine ⟨hsplit, ?_⟩
  rw [hsplit]
  rw [show (([] :: cells.map (fun c => ' ' :: (c.data ++ [' ']))) ++ [[]])
      = [] :: (cells.map (fun c => ' ' :: (c.data ++ [' '])) ++ [[]]) from rfl]
  rw [show ∀ L : List (List Char), ([] :: L).drop 1 = L from fun _ => rfl]
  rw [List.dropLast_concat, List.map_map]
  refine List.map_congr_left ?_
  intro c hc
  exact strip_pad c.data (hstrip c hc)

/-- C8 witness: the amended round trip instantiated at the concrete row
`["a", "b"]`. -/
theorem C8_roundtrip_amended_witness :
    splitTab (serializeRow ["a", "b"]).data
        = ([] :: (["a", "b"] : List String).map (fun c => ' ' :: (c.data ++ [' ']))) ++ [[]] ∧
    (((splitTab (serializeRow ["a", "b"]).data).drop 1).dropLast).map stripChars
        = (["a", "b"] : List String).map String.data :=
  C8_roundtrip_amended ["a", "b"] (by decide) (by decide) (by decide)

end RagTables
